import Mathlib

/-!
Verification development for the CSV tokenizer, the confirmation-code and
link extractor, and the record-mapping steps of the studio repository,
file src/app/actions/data.ts.

The tokenizer parseCsvWithQuotes, the extractor extractInfoWithoutAI and
the pure mapping cores of fetchSmsData and fetchAccessListData are
translated into executable Lean functions over lists of characters.
Strings are modelled by their character lists; JavaScript string trimming,
the word classes of the regular expressions, and JavaScript array indexing
semantics are modelled explicitly.
-/

set_option maxHeartbeats 1000000

/-- Character class trimmed by the JavaScript String trim method and
matched by the backslash-s class of JavaScript regular expressions:
tab, line feed, vertical tab, form feed, carriage return, space,
no-break space, the Unicode space separators, the line and paragraph
separators and the byte order mark. -/
def isJsSpace (c : Char) : Bool :=
  c = ' ' || c = '\t' || c = '\n' || c = '\r' ||
  c = Char.ofNat 11 || c = Char.ofNat 12 || c = Char.ofNat 160 ||
  c = Char.ofNat 5760 || (8192 ≤ c.toNat && c.toNat ≤ 8202) ||
  c = Char.ofNat 8232 || c = Char.ofNat 8233 || c = Char.ofNat 8239 ||
  c = Char.ofNat 8287 || c = Char.ofNat 12288 || c = Char.ofNat 65279

/-- JavaScript String trim: remove leading and trailing whitespace. -/
def jsTrim (s : List Char) : List Char :=
  ((s.dropWhile isJsSpace).reverse.dropWhile isJsSpace).reverse

/-- JavaScript String trim on packed strings. -/
def jsTrimStr (s : String) : String :=
  String.mk (jsTrim s.data)

/-- Core scanning loop of parseCsvWithQuotes (data.ts lines 79 to 117),
including the flush of the last field and row at end of input.
The five arguments are the remaining input, the inQuotes flag, the
current field accumulator, the current row accumulator and the rows
accumulated so far.  The source loop advances the index by two when it
sees an escaped quote inside quotes or a carriage return followed by a
line feed outside quotes; this is rendered by the two-character list
patterns. -/
def csvRun : List Char → Bool → List Char → List (List Char) →
    List (List (List Char)) → List (List (List Char))
  | [], _, field, row, rows =>
    if field ≠ [] ∨ row ≠ [] then rows ++ [row ++ [field]] else rows
  | '"' :: '"' :: rest, true, field, row, rows =>
    csvRun rest true (field ++ ['"']) row rows
  | '"' :: rest, true, field, row, rows =>
    csvRun rest false field row rows
  | c :: rest, true, field, row, rows =>
    csvRun rest true (field ++ [c]) row rows
  | '"' :: rest, false, field, row, rows =>
    csvRun rest true field row rows
  | ';' :: rest, false, field, row, rows =>
    csvRun rest false [] (row ++ [field]) rows
  | '\r' :: '\n' :: rest, false, field, row, rows =>
    csvRun rest false [] [] (rows ++ [row ++ [field]])
  | '\n' :: rest, false, field, row, rows =>
    csvRun rest false [] [] (rows ++ [row ++ [field]])
  | '\r' :: rest, false, field, row, rows =>
    csvRun rest false [] [] (rows ++ [row ++ [field]])
  | c :: rest, false, field, row, rows =>
    csvRun rest false (field ++ [c]) row rows

/-- Row filter of parseCsvWithQuotes (data.ts line 119): keep a row when
it has more than one field, or exactly one field that is nonempty. -/
def keepRow : List (List Char) → Bool
  | [] => false
  | [f] => !f.isEmpty
  | _ :: _ :: _ => true

/-- parseCsvWithQuotes (data.ts lines 72 to 120): trim the input, run the
quote-aware scan, and drop rows that are a single empty field. -/
def parseCsvWithQuotes (input : String) : List (List String) :=
  ((csvRun (jsTrim input.data) false [] [] []).filter keepRow).map
    (fun r => r.map String.mk)

/-- Word character of JavaScript regular expressions: ASCII letters,
ASCII digits and the underscore. -/
def isWordChar (c : Char) : Bool :=
  c.isAlpha || c.isDigit || c = '_'

/-- Word-ness of an optional character; the absent character at either
end of the string counts as not a word character. -/
def wordOpt : Option Char → Bool
  | none => false
  | some c => isWordChar c

/-- Word boundary between two adjacent optional characters. -/
def wordBoundary (p n : Option Char) : Bool :=
  wordOpt p != wordOpt n

/-- Boundary check used directly after a digit of a candidate match: the
next character must be absent or not a word character. -/
def tailBoundary : List Char → Bool
  | [] => true
  | c :: _ => !isWordChar c

/-- One greedy attempt of the digit-run alternative: match exactly k
leading digits followed by a word boundary. -/
def tryRunLen (l : List Char) (k : Nat) : Option (List Char) :=
  if (l.take k).length = k && (l.take k).all Char.isDigit && tailBoundary (l.drop k)
  then some (l.take k) else none

/-- Digit-run alternative of the confirmation-code pattern: a greedy
match of four to eight digits, trying the longest run first exactly as a
backtracking regular-expression engine does. -/
def matchAltA (l : List Char) : Option (List Char) :=
  (tryRunLen l 8).orElse fun _ =>
  (tryRunLen l 7).orElse fun _ =>
  (tryRunLen l 6).orElse fun _ =>
  (tryRunLen l 5).orElse fun _ =>
  tryRunLen l 4

/-- Hyphenated alternative of the confirmation-code pattern: three
digits, a hyphen, three digits, followed by a word boundary. -/
def matchAltB : List Char → Option (List Char)
  | a :: b :: c :: h :: d :: e :: f :: rest =>
    if Char.isDigit a && Char.isDigit b && Char.isDigit c && h = '-' &&
       Char.isDigit d && Char.isDigit e && Char.isDigit f &&
       tailBoundary rest
    then some [a, b, c, h, d, e, f] else none
  | _ => none

/-- Attempt of the whole confirmation-code pattern at one position: a
word boundary against the previous character p, then the digit-run
alternative, then the hyphenated alternative (data.ts line 124). -/
def matchCodeAt (p : Option Char) (l : List Char) : Option (List Char) :=
  if wordBoundary p l.head? then
    (matchAltA l).orElse fun _ => matchAltB l
  else none

/-- Left-to-right scan for the first confirmation-code match; p is the
character just before the current position. -/
def findCode : Option Char → List Char → Option (List Char)
  | _, [] => none
  | p, c :: rest =>
    match matchCodeAt p (c :: rest) with
    | some m => some m
    | none => findCode (some c) rest

/-- Character allowed in the tail of a link match: anything that is not
whitespace, a double quote or a single quote (data.ts line 134). -/
def linkChar (c : Char) : Bool :=
  !(isJsSpace c || c = '"' || c = Char.ofNat 39)

/-- Consume an exact literal prefix, returning the remainder. -/
def dropLit : List Char → List Char → Option (List Char)
  | [], l => some l
  | _ :: _, [] => none
  | p :: ps, c :: cs => if c = p then dropLit ps cs else none

/-- Greedy nonempty run of link characters, as the plus-quantified
character class of the link pattern. -/
def linkTailRun (l : List Char) : Option (List Char) :=
  if (l.takeWhile linkChar).isEmpty then none else some (l.takeWhile linkChar)

/-- After the literal http and an optional s (hasS), consume the colon
and double slash and the nonempty run of link characters, returning the
whole matched substring. -/
def schemeTail (hasS : Bool) (r : List Char) : Option (List Char) :=
  match dropLit ("://".data) r with
  | none => none
  | some rest2 =>
    match linkTailRun rest2 with
    | none => none
    | some run =>
      some (("http".data ++ (if hasS then ['s'] else []) ++ "://".data) ++ run)

/-- Attempt of the whole link pattern at one position: the literal http,
a greedy optional s that backtracks, the colon and double slash, then at
least one link character (data.ts line 134). -/
def matchLinkAt (l : List Char) : Option (List Char) :=
  match dropLit ("http".data) l with
  | none => none
  | some r =>
    match r with
    | 's' :: r2 => (schemeTail true r2).orElse fun _ => schemeTail false r
    | _ => schemeTail false r

/-- Left-to-right scan for the first link match. -/
def findLink : List Char → Option (List Char)
  | [] => none
  | c :: rest =>
    match matchLinkAt (c :: rest) with
    | some m => some m
    | none => findLink rest

/-- Result type of the extractor: an optional confirmation code and an
optional link. -/
structure ExtractedInfo where
  confirmationCode : Option String
  link : Option String
deriving DecidableEq, Repr

/-- extractInfoWithoutAI (data.ts lines 122 to 139): take the first
confirmation-code match and remove its hyphens, and take the first link
match. -/
def extractInfoWithoutAI (message : String) : ExtractedInfo :=
  let confirmationCode :=
    (findCode none message.data).map
      (fun m => String.mk (m.filter (fun c => c ≠ '-')))
  let link := (findLink message.data).map String.mk
  { confirmationCode := confirmationCode, link := link }

/-- JavaScript Array indexOf on strings: index of the first occurrence,
or minus one when absent. -/
def jsIndexOf (x : String) : List String → Int
  | [] => -1
  | y :: ys =>
    if y = x then 0
    else if jsIndexOf x ys = -1 then -1 else jsIndexOf x ys + 1

/-- JavaScript array indexing with an integer index: any index outside
the array, including negative indices, yields undefined, modelled as
none. -/
def jsIndex (parts : List String) (i : Int) : Option String :=
  if 0 ≤ i then parts[i.toNat]? else none

/-- Header normalisation shared by both mapping steps (data.ts lines 238
and 355): trim each header cell and lower-case each of its characters. -/
def headerKeys (headerRow : List String) : List String :=
  headerRow.map (fun h => String.mk ((jsTrimStr h).data.map Char.toLower))

/-- Column map of fetchSmsData (data.ts lines 242 to 251). -/
structure SmsColumnMap where
  dateTime : Int
  senderId : Int
  phone : Int
  mccMnc : Int
  destination : Int
  rate : Int
  currency : Int
  message : Int
deriving DecidableEq, Repr

/-- Build the SMS column map from the normalised headers. -/
def smsColumnMap (headers : List String) : SmsColumnMap where
  dateTime := jsIndexOf "datetime" headers
  senderId := jsIndexOf "senderid" headers
  phone := jsIndexOf "b-number" headers
  mccMnc := jsIndexOf "mcc/mnc" headers
  destination := jsIndexOf "destination" headers
  rate := jsIndexOf "rate" headers
  currency := jsIndexOf "currency" headers
  message := jsIndexOf "message" headers

/-- SMS record as assembled by fetchSmsData (data.ts lines 265 to 275);
optional columns that do not resolve, and cells beyond the end of a row,
are undefined. -/
structure SmsRecord where
  dateTime : Option String
  senderId : Option String
  phone : Option String
  mccMnc : Option String
  destination : Option String
  rate : Option String
  currency : Option String
  message : String
  extractedInfo : ExtractedInfo
deriving DecidableEq, Repr

/-- Processing of one SMS data row (data.ts lines 257 to 276): a row
with no more fields than the message column index is skipped, every
other row yields one record. -/
def smsRowRecord (cm : SmsColumnMap) (parts : List String) : Option SmsRecord :=
  if (parts.length : Int) ≤ cm.message then none
  else
    match jsIndex parts cm.message with
    | none => none
    | some message =>
      some { dateTime := jsIndex parts cm.dateTime
             senderId := jsIndex parts cm.senderId
             phone := jsIndex parts cm.phone
             mccMnc := jsIndex parts cm.mccMnc
             destination := jsIndex parts cm.destination
             rate := jsIndex parts cm.rate
             currency := jsIndex parts cm.currency
             message := message
             extractedInfo := extractInfoWithoutAI message }

/-- Fixed error string of the SMS mapping step (data.ts line 254). -/
def smsMissingColumnsMsg : String :=
  "CSV response is missing required columns (\x27datetime\x27, \x27message\x27)."

/-- Pure mapping core of fetchSmsData from the parsed table to the
result (data.ts lines 234 to 278): fewer than two rows yield no records,
a header row whose datetime or message column does not resolve is a hard
error, and otherwise each data row is mapped with smsRowRecord. -/
def smsMapStep (allRows : List (List String)) : Except String (List SmsRecord) :=
  match allRows with
  | [] => .ok []
  | [_] => .ok []
  | headerRow :: dataRows =>
    let cm := smsColumnMap (headerKeys headerRow)
    if cm.dateTime = -1 ∨ cm.message = -1 then
      .error smsMissingColumnsMsg
    else
      .ok (dataRows.filterMap (smsRowRecord cm))

/-- Column map of fetchAccessListData (data.ts lines 359 to 371). -/
structure AccessColumnMap where
  price : Int
  accessOrigin : Int
  accessDestination : Int
  testNumber : Int
  rate : Int
  currency : Int
  comment : Int
  message : Int
  limitHour : Int
  limitDay : Int
  datetime : Int
deriving DecidableEq, Repr

/-- Build the access-list column map from the normalised headers. -/
def accessColumnMap (headers : List String) : AccessColumnMap where
  price := jsIndexOf "price" headers
  accessOrigin := jsIndexOf "access origin" headers
  accessDestination := jsIndexOf "access destination" headers
  testNumber := jsIndexOf "test number" headers
  rate := jsIndexOf "rate" headers
  currency := jsIndexOf "currency" headers
  comment := jsIndexOf "comment" headers
  message := jsIndexOf "message" headers
  limitHour := jsIndexOf "limit hour" headers
  limitDay := jsIndexOf "limit day" headers
  datetime := jsIndexOf "datetime" headers

/-- Access-list record as assembled by fetchAccessListData (data.ts
lines 378 to 390); every cell is read with JavaScript indexing and may
be undefined. -/
structure AccessListRecord where
  price : Option String
  accessOrigin : Option String
  accessDestination : Option String
  testNumber : Option String
  rate : Option String
  currency : Option String
  comment : Option String
  message : Option String
  limitHour : Option String
  limitDay : Option String
  datetime : Option String
deriving DecidableEq, Repr

/-- Processing of one access-list data row (data.ts lines 377 to 391):
no length guard, every row yields one record. -/
def accessRowRecord (cm : AccessColumnMap) (parts : List String) : AccessListRecord where
  price := jsIndex parts cm.price
  accessOrigin := jsIndex parts cm.accessOrigin
  accessDestination := jsIndex parts cm.accessDestination
  testNumber := jsIndex parts cm.testNumber
  rate := jsIndex parts cm.rate
  currency := jsIndex parts cm.currency
  comment := jsIndex parts cm.comment
  message := jsIndex parts cm.message
  limitHour := jsIndex parts cm.limitHour
  limitDay := jsIndex parts cm.limitDay
  datetime := jsIndex parts cm.datetime

/-- Fixed error string of the access-list mapping step (data.ts line 374). -/
def accessMissingColumnMsg : String :=
  "CSV response is missing required column (\x27access origin\x27)."

/-- Pure mapping core of fetchAccessListData from the parsed table to
the result (data.ts lines 351 to 393). -/
def accessMapStep (allRows : List (List String)) :
    Except String (List AccessListRecord) :=
  match allRows with
  | [] => .ok []
  | [_] => .ok []
  | headerRow :: dataRows =>
    let cm := accessColumnMap (headerKeys headerRow)
    if cm.accessOrigin = -1 then
      .error accessMissingColumnMsg
    else
      .ok (dataRows.map (accessRowRecord cm))


/-- Join a list of character lists with a separator; helper for the
round-trip renderer. -/
def joinWith (sep : List Char) : List (List Char) → List Char
  | [] => []
  | [x] => x
  | x :: xs => x ++ sep ++ joinWith sep xs

/-- Modelled from the words of the round-trip claim: render each row as
a semicolon-joined line and join the lines with line terminators. -/
def renderSemicolonLines (rows : List (List String)) : String :=
  String.mk (joinWith ['\n'] (rows.map (fun r => joinWith [';'] (r.map String.data))))

/-- Field with no embedded delimiter, quote or line terminator. -/
def cleanFieldB (f : List Char) : Bool :=
  f.all (fun c => !(c = ';' || c = '"' || c = '\n' || c = '\r'))

/-- Optional character just before position i of the scan, given the
optional character p just before position zero. -/
def pAt (p : Option Char) (l : List Char) (i : Nat) : Option Char :=
  if i = 0 then p else l[i-1]?

/-- Modelled from the words of the confirmation-code claim: the shape of
a code match, either a run of four to eight decimal digits, or three
digits, a hyphen and three digits. -/
def CodeShape (m : List Char) : Prop :=
  (m.all Char.isDigit = true ∧ 4 ≤ m.length ∧ m.length ≤ 8)
  ∨ (∃ a b c d e f, m = [a, b, c, '-', d, e, f] ∧
      Char.isDigit a = true ∧ Char.isDigit b = true ∧ Char.isDigit c = true ∧
      Char.isDigit d = true ∧ Char.isDigit e = true ∧ Char.isDigit f = true)

/-- Modelled from the words of the confirmation-code claim: m matches at
the head of the remaining input l, whose preceding character is p, when
m is a prefix of l, is bounded by word boundaries on both sides, and has
one of the two code shapes. -/
def CodeTokenAt (p : Option Char) (l m : List Char) : Prop :=
  (∃ t, l = m ++ t) ∧
  wordBoundary p m.head? = true ∧
  wordBoundary m.getLast? (l.drop m.length).head? = true ∧
  CodeShape m

/-- Modelled from the words of the link claim: m is a link token at the
head of the remaining input l when l begins with the literal scheme
http or https followed by colon and double slash, and m is that scheme
followed by the characters up to but not including the next whitespace
or quote character; the continuation must contain at least one
character, as required by the source pattern. -/
def LinkTokenAt (l m : List Char) : Prop :=
  ∃ scheme tail, (scheme = "http://".data ∨ scheme = "https://".data) ∧
    (∃ t, l = scheme ++ t) ∧
    tail = (l.drop scheme.length).takeWhile linkChar ∧
    tail ≠ [] ∧
    m = scheme ++ tail

/-! Basic step lemmas for the tokenizer scan. -/

theorem csvRun_flush (inQ : Bool) (field : List Char) (row : List (List Char))
    (rows : List (List (List Char))) (h : field ≠ [] ∨ row ≠ []) :
    csvRun [] inQ field row rows = rows ++ [row ++ [field]] := by
  simp [csvRun, h]

theorem csvRun_flush_empty (inQ : Bool) (rows : List (List (List Char))) :
    csvRun [] inQ [] [] rows = rows := by
  simp [csvRun]

theorem csvRun_clean_char (c : Char) (rest field : List Char)
    (row : List (List Char)) (rows : List (List (List Char)))
    (h1 : c ≠ '"') (h2 : c ≠ ';') (h3 : c ≠ '\n') (h4 : c ≠ '\r') :
    csvRun (c :: rest) false field row rows
      = csvRun rest false (field ++ [c]) row rows := by
  simp [csvRun, h1, h2, h3, h4]

theorem csvRun_semi (rest field : List Char) (row : List (List Char))
    (rows : List (List (List Char))) :
    csvRun (';' :: rest) false field row rows
      = csvRun rest false [] (row ++ [field]) rows := by
  simp [csvRun]

theorem csvRun_newline (rest field : List Char) (row : List (List Char))
    (rows : List (List (List Char))) :
    csvRun ('\n' :: rest) false field row rows
      = csvRun rest false [] [] (rows ++ [row ++ [field]]) := by
  simp [csvRun]

/-- Every row accumulated by the scan is nonempty, since a pushed row
always ends with the current field. -/
theorem csvRun_rows_ne_nil (l : List Char) (inQ : Bool) (field : List Char)
    (row : List (List Char)) (rows : List (List (List Char))) :
    (∀ x ∈ rows, x ≠ []) → ∀ x ∈ csvRun l inQ field row rows, x ≠ [] := by
  induction l, inQ, field, row, rows using csvRun.induct with
  | case1 inQ field row rows h =>
    intro hr x hx
    rw [csvRun_flush _ _ _ _ h] at hx
    rcases List.mem_append.mp hx with hx | hx
    · exact hr x hx
    · rcases List.mem_singleton.mp hx with rfl
      simp
  | case2 inQ field row rows h =>
    intro hr x hx
    simp only [csvRun, if_neg h] at hx
    exact hr x hx
  | case3 rest field row rows ih =>
    intro hr
    simp only [csvRun]
    exact ih hr
  | case4 rest field row rows hne ih =>
    intro hr
    rw [show csvRun ('"' :: rest) true field row rows = csvRun rest false field row rows from by
      match rest, hne with
      | [], _ => simp [csvRun]
      | c :: rest2, hne =>
        have : c ≠ '"' := fun hc => hne rest2 (by rw [hc])
        simp [csvRun, this]]
    exact ih hr
  | case5 c rest field row rows h1 h2 ih =>
    intro hr
    rw [show csvRun (c :: rest) true field row rows = csvRun rest true (field ++ [c]) row rows from by
      simp [csvRun, h2]]
    exact ih hr
  | case6 rest field row rows ih =>
    intro hr
    simp only [csvRun]
    exact ih hr
  | case7 rest field row rows ih =>
    intro hr
    rw [csvRun_semi]
    exact ih hr
  | case8 rest field row rows ih =>
    intro hr
    simp only [csvRun]
    apply ih
    intro x hx
    rcases List.mem_append.mp hx with hx | hx
    · exact hr x hx
    · rcases List.mem_singleton.mp hx with rfl; simp
  | case9 rest field row rows ih =>
    intro hr
    rw [csvRun_newline]
    apply ih
    intro x hx
    rcases List.mem_append.mp hx with hx | hx
    · exact hr x hx
    · rcases List.mem_singleton.mp hx with rfl; simp
  | case10 rest field row rows hne ih =>
    intro hr
    rw [show csvRun ('\r' :: rest) false field row rows
        = csvRun rest false [] [] (rows ++ [row ++ [field]]) from by
      match rest, hne with
      | [], _ => simp [csvRun]
      | c :: rest2, hne =>
        have : c ≠ '\n' := fun hc => hne rest2 (by rw [hc])
        simp [csvRun, this]]
    apply ih
    intro x hx
    rcases List.mem_append.mp hx with hx | hx
    · exact hr x hx
    · rcases List.mem_singleton.mp hx with rfl; simp
  | case11 c rest field row rows h1 h2 h3 h4 h5 ih =>
    intro hr
    rw [csvRun_clean_char c rest field row rows h1 h2 h4 h5]
    exact ih hr

/-- C1: while the tokenizer is inside a quoted region, a quote followed
immediately by another quote emits exactly one literal quote into the
current field and consumes both characters, a lone quote ends the quoted
region, and every other character, including the semicolon and both line
terminators, is appended to the current field; consequently the example
input holding an embedded newline inside quotes parses to a single row. -/
theorem C1_quoted_region_behavior :
    (∀ rest field row rows,
        csvRun ('"' :: '"' :: rest) true field row rows
          = csvRun rest true (field ++ ['"']) row rows)
    ∧ (∀ rest field row rows, rest.head? ≠ some '"' →
        csvRun ('"' :: rest) true field row rows
          = csvRun rest false field row rows)
    ∧ (∀ c rest field row rows, c ≠ '"' →
        csvRun (c :: rest) true field row rows
          = csvRun rest true (field ++ [c]) row rows)
    ∧ parseCsvWithQuotes "\"line1\nline2\";x" = [["line1\nline2", "x"]] := by
  refine ⟨fun rest field row rows => by simp [csvRun],
          fun rest field row rows h => ?_,
          fun c rest field row rows h => by simp [csvRun, h],
          by decide⟩
  match rest with
  | [] => simp [csvRun]
  | c :: rest2 =>
    simp only [List.head?_cons, ne_eq, Option.some.injEq] at h
    simp [csvRun, h]

theorem C1_quoted_region_behavior_witness :
    (csvRun ['"'] true ['a'] [] [] = csvRun [] false ['a'] [] [])
    ∧ (csvRun ['x'] true [] [] [] = csvRun [] true ['x'] [] []) :=
  ⟨C1_quoted_region_behavior.2.1 [] ['a'] [] [] (by decide),
   C1_quoted_region_behavior.2.2.1 'x' [] [] [] [] (by decide)⟩

/-- C6: the SMS mapping step on an empty table, or on a table holding
only a header row, is not an error and returns no records, regardless of
the header content. -/
theorem C6_too_few_rows_ok :
    smsMapStep [] = .ok [] ∧ ∀ headerRow : List String, smsMapStep [headerRow] = .ok [] :=
  ⟨rfl, fun _ => rfl⟩

/-- C8: at end of input a partial field or nonempty row is flushed as a
final row and nothing is flushed otherwise; rows accumulated by the scan
are never empty; a nonempty row passes the output filter exactly when it
is not a single empty field; the parser output is the filtered
accumulated rows; and the input a;b with no trailing line terminator
yields the single row holding a and b. -/
theorem C8_flush_and_filter :
    (∀ inQ field row rows, field ≠ [] ∨ row ≠ [] →
        csvRun [] inQ field row rows = rows ++ [row ++ [field]])
    ∧ (∀ inQ rows, csvRun [] inQ [] [] rows = rows)
    ∧ (∀ l inQ field row rows, (∀ x ∈ rows, x ≠ []) →
        ∀ x ∈ csvRun l inQ field row rows, x ≠ [])
    ∧ (∀ r : List (List Char), r ≠ [] → (keepRow r = true ↔ r ≠ [[]]))
    ∧ (∀ input : String, parseCsvWithQuotes input
        = ((csvRun (jsTrim input.data) false [] [] []).filter keepRow).map
            (fun r => r.map String.mk))
    ∧ parseCsvWithQuotes "a;b" = [["a", "b"]] := by
  refine ⟨csvRun_flush, csvRun_flush_empty, csvRun_rows_ne_nil, ?_, fun _ => rfl, by decide⟩
  intro r hr
  match r with
  | [f] =>
    constructor
    · intro hk hf
      have hfe : f = [] := by simpa using hf
      subst hfe
      simp [keepRow] at hk
    · intro hne
      have : f ≠ [] := fun hf => hne (by rw [hf])
      simp [keepRow, this]
  | a :: b :: t =>
    simp [keepRow]

theorem C8_flush_and_filter_witness :
    (csvRun [] false ['a'] [] [] = [[['a']]])
    ∧ (keepRow [['a']] = true ↔ [['a']] ≠ [[]]) :=
  ⟨C8_flush_and_filter.1 false ['a'] [] [] (Or.inl (by decide)),
   C8_flush_and_filter.2.2.2.1 [['a']] (by decide)⟩

/-! Lemmas about the JavaScript indexing helpers. -/

/-- jsIndexOf returns minus one or a nonnegative index. -/
theorem jsIndexOf_eq_neg_one_or_nonneg (x : String) (l : List String) :
    jsIndexOf x l = -1 ∨ 0 ≤ jsIndexOf x l := by
  induction l with
  | nil => exact Or.inl rfl
  | cons y ys ih =>
    simp only [jsIndexOf]
    by_cases h : y = x
    · simp [h]
    · simp only [if_neg h]
      by_cases h2 : jsIndexOf x ys = -1
      · simp [h2]
      · rcases ih with h3 | h3
        · exact absurd h3 h2
        · simp only [if_neg h2]
          right
          omega

/-- Indexing past the end of the array, or with a negative index, yields
undefined. -/
theorem jsIndex_none_of_out (parts : List String) (i : Int)
    (h : (parts.length : Int) ≤ i ∨ i < 0) : jsIndex parts i = none := by
  rcases h with h | h
  · have h0 : 0 ≤ i := le_trans (by positivity) h
    have hlen : parts.length ≤ i.toNat := by omega
    simp [jsIndex, h0, List.getElem?_eq_none hlen]
  · have h0 : ¬(0 ≤ i) := by omega
    simp [jsIndex, h0]

/-- Indexing inside the array yields the cell. -/
theorem jsIndex_isSome (parts : List String) (i : Int) (h0 : 0 ≤ i)
    (h1 : i < (parts.length : Int)) : (jsIndex parts i).isSome = true := by
  have hlt : i.toNat < parts.length := by omega
  simp [jsIndex, h0, List.getElem?_eq_getElem hlt]

/-- An SMS data row is skipped exactly when it has no more fields than
the message column index, provided the message column resolved. -/
theorem smsRowRecord_none_iff (cm : SmsColumnMap) (parts : List String)
    (hm : 0 ≤ cm.message) :
    smsRowRecord cm parts = none ↔ (parts.length : Int) ≤ cm.message := by
  by_cases h : (parts.length : Int) ≤ cm.message
  · simp [smsRowRecord, h]
  · have h1 : cm.message < (parts.length : Int) := by omega
    have hs := jsIndex_isSome parts cm.message hm h1
    rcases Option.isSome_iff_exists.mp hs with ⟨v, hv⟩
    simp [smsRowRecord, h, hv]

/-- C5 amended: for every parsed table with a header row and at least
one data row, if after trimming and lower-casing the header row either
the datetime or the message column fails to resolve to a nonnegative
index, the SMS mapping step returns the fixed error string and no
records. -/
theorem C5_missing_required_columns (headerRow r : List String)
    (rs : List (List String))
    (hbad : (smsColumnMap (headerKeys headerRow)).dateTime < 0
          ∨ (smsColumnMap (headerKeys headerRow)).message < 0) :
    smsMapStep (headerRow :: r :: rs) = .error smsMissingColumnsMsg := by
  have hbad' : (smsColumnMap (headerKeys headerRow)).dateTime = -1
      ∨ (smsColumnMap (headerKeys headerRow)).message = -1 := by
    rcases hbad with h | h
    · left
      rcases jsIndexOf_eq_neg_one_or_nonneg "datetime" (headerKeys headerRow) with h2 | h2
      · exact h2
      · exact absurd h (by simp only [smsColumnMap] at *; omega)
    · right
      rcases jsIndexOf_eq_neg_one_or_nonneg "message" (headerKeys headerRow) with h2 | h2
      · exact h2
      · exact absurd h (by simp only [smsColumnMap] at *; omega)
  simp only [smsMapStep, if_pos hbad']

/-- C5 counterexample to the claim as stated: a parsed table consisting
of a single header row that lacks both required columns is not an error;
the mapping step returns no records instead of the fixed error string,
because the too-few-rows check precedes header validation. -/
theorem C5_counterexample :
    ((smsColumnMap (headerKeys ["foo"])).dateTime < 0
      ∨ (smsColumnMap (headerKeys ["foo"])).message < 0)
    ∧ smsMapStep [["foo"]] = .ok []
    ∧ smsMapStep [["foo"]] ≠ .error smsMissingColumnsMsg :=
  ⟨by decide, rfl, fun h => Except.noConfusion (Eq.mp (by rw [show smsMapStep [["foo"]] = .ok [] from rfl]) h)⟩

theorem C5_missing_required_columns_witness :
    smsMapStep [["foo"], ["x"]] = .error smsMissingColumnsMsg :=
  C5_missing_required_columns ["foo"] ["x"] [] (by decide)

/-- C7: when both required columns resolve, the SMS mapping step maps
the data rows through smsRowRecord in order; a data row yields no record
exactly when its number of fields is less than the message column index
plus one, and every row with at least that many fields yields a record. -/
theorem C7_short_row_skip (headerRow r : List String) (rs : List (List String))
    (hok : ¬((smsColumnMap (headerKeys headerRow)).dateTime = -1
           ∨ (smsColumnMap (headerKeys headerRow)).message = -1)) :
    smsMapStep (headerRow :: r :: rs)
      = .ok ((r :: rs).filterMap (smsRowRecord (smsColumnMap (headerKeys headerRow))))
    ∧ (∀ parts : List String,
        smsRowRecord (smsColumnMap (headerKeys headerRow)) parts = none
          ↔ (parts.length : Int) < (smsColumnMap (headerKeys headerRow)).message + 1)
    ∧ (∀ parts : List String,
        (smsColumnMap (headerKeys headerRow)).message + 1 ≤ (parts.length : Int)
          → (smsRowRecord (smsColumnMap (headerKeys headerRow)) parts).isSome = true) := by
  have hm : 0 ≤ (smsColumnMap (headerKeys headerRow)).message := by
    rcases jsIndexOf_eq_neg_one_or_nonneg "message" (headerKeys headerRow) with h | h
    · exact absurd (Or.inr h) hok
    · exact h
  refine ⟨by simp only [smsMapStep, if_neg hok], fun parts => ?_, fun parts hlen => ?_⟩
  · rw [smsRowRecord_none_iff _ _ hm]
    omega
  · rcases h : smsRowRecord (smsColumnMap (headerKeys headerRow)) parts with _ | v
    · rw [smsRowRecord_none_iff _ _ hm] at h
      omega
    · rfl

theorem C7_short_row_skip_witness :
    smsMapStep [["datetime", "message"], ["d1", "m1"], ["x"]]
      = .ok (([["d1", "m1"], ["x"]] : List (List String)).filterMap
          (smsRowRecord (smsColumnMap (headerKeys ["datetime", "message"])))) :=
  (C7_short_row_skip ["datetime", "message"] ["d1", "m1"] [["x"]] (by decide)).1

/-- C9: when the access-origin column resolves and there is at least one
data row, the access-list assembly maps every data row to exactly one
record, in order, with no row-length check; a cell whose column index
lies at or past the end of its row is undefined rather than an error. -/
theorem C9_access_rows_not_length_checked (headerRow r : List String)
    (rs : List (List String))
    (hok : 0 ≤ (accessColumnMap (headerKeys headerRow)).accessOrigin) :
    accessMapStep (headerRow :: r :: rs)
      = .ok ((r :: rs).map (accessRowRecord (accessColumnMap (headerKeys headerRow))))
    ∧ ((r :: rs).map (accessRowRecord (accessColumnMap (headerKeys headerRow)))).length
        = (r :: rs).length
    ∧ (∀ parts : List String, ∀ i : Int, (parts.length : Int) ≤ i →
        jsIndex parts i = none)
    ∧ (∀ parts : List String,
        (parts.length : Int) ≤ (accessColumnMap (headerKeys headerRow)).datetime →
          (accessRowRecord (accessColumnMap (headerKeys headerRow)) parts).datetime = none) := by
  have hne : ¬((accessColumnMap (headerKeys headerRow)).accessOrigin = -1) := by omega
  refine ⟨by simp only [accessMapStep, if_neg hne], List.length_map _ _,
          fun parts i h => jsIndex_none_of_out parts i (Or.inl h),
          fun parts h => jsIndex_none_of_out parts _ (Or.inl h)⟩

theorem C9_access_rows_not_length_checked_witness :
    accessMapStep [["access origin"], ["o1"], []]
      = .ok (([["o1"], []] : List (List String)).map
          (accessRowRecord (accessColumnMap (headerKeys ["access origin"])))) :=
  (C9_access_rows_not_length_checked ["access origin"] ["o1"] [[]] (by decide)).1

/-! Round-trip machinery for the renderer and the tokenizer. -/

theorem joinWith_cons (sep x : List Char) (xs : List (List Char)) (h : xs ≠ []) :
    joinWith sep (x :: xs) = x ++ sep ++ joinWith sep xs := by
  match xs with
  | [] => exact absurd rfl h
  | y :: ys => rfl

theorem string_mk_data (s : String) : String.mk s.data = s := rfl

/-- Scanning a clean field appends it to the field accumulator. -/
theorem csvRun_clean_field : ∀ (f : List Char), cleanFieldB f = true →
    ∀ rest field row rows, csvRun (f ++ rest) false field row rows
      = csvRun rest false (field ++ f) row rows := by
  intro f
  induction f with
  | nil => intro _ rest field row rows; simp
  | cons c cs ih =>
    intro hf rest field row rows
    simp only [cleanFieldB, List.all_cons, Bool.and_eq_true, Bool.not_eq_true',
      Bool.or_eq_false_iff, decide_eq_false_iff_not] at hf
    obtain ⟨⟨⟨⟨h1, h2⟩, h3⟩, h4⟩, hcs⟩ := hf
    rw [List.cons_append, csvRun_clean_char c (cs ++ rest) field row rows h2 h1 h3 h4]
    rw [ih (by simpa [cleanFieldB] using hcs) rest (field ++ [c]) row rows]
    simp

/-- Scanning a clean semicolon-joined line accumulates its fields: the
last one stays in the field accumulator, the others are pushed onto the
row accumulator. -/
theorem scanLine (gs : List (List Char)) (g : List Char) :
    (∀ f ∈ gs, cleanFieldB f = true) → cleanFieldB g = true →
    ∀ rest row rows, csvRun (joinWith [';'] (gs ++ [g]) ++ rest) false [] row rows
      = csvRun rest false g (row ++ gs) rows := by
  induction gs with
  | nil =>
    intro _ hg rest row rows
    rw [List.nil_append, show joinWith [';'] [g] = g from rfl,
      csvRun_clean_field g hg]
    simp
  | cons f gs ih =>
    intro hgs hg rest row rows
    rw [List.cons_append, joinWith_cons _ f (gs ++ [g]) (by simp),
      List.append_assoc, List.append_assoc,
      csvRun_clean_field f (hgs f (by simp)), List.nil_append,
      show ([';'] ++ (joinWith [';'] (gs ++ [g]) ++ rest))
          = (';' :: (joinWith [';'] (gs ++ [g]) ++ rest)) from rfl,
      csvRun_semi, ih (fun x hx => hgs x (by simp [hx])) hg]
    simp

/-- Scanning a rendered clean table appends its rows to the accumulator. -/
theorem scanTable : ∀ (rls acc : List (List (List Char))),
    (∀ r ∈ rls, r ≠ [] ∧ r ≠ [[]] ∧ ∀ f ∈ r, cleanFieldB f = true) → rls ≠ [] →
    csvRun (joinWith ['\n'] (rls.map (joinWith [';']))) false [] [] acc
      = acc ++ rls := by
  intro rls
  induction rls with
  | nil => intro acc _ h; exact absurd rfl h
  | cons r rls ih =>
    intro acc hok _
    obtain ⟨hne, hne2, hclean⟩ := hok r (by simp)
    obtain ⟨gs, g, rfl⟩ : ∃ gs g, r = gs ++ [g] := by
      rcases List.eq_nil_or_concat r with h | ⟨L, b, h⟩
      · exact absurd h hne
      · exact ⟨L, b, by simpa using h⟩
    have hflush : g ≠ [] ∨ gs ≠ [] := by
      by_cases hgs : gs = []
      · subst hgs
        left
        intro hg
        subst hg
        exact hne2 rfl
      · exact Or.inr hgs
    match rls with
    | [] =>
      rw [List.map_cons, List.map_nil,
        show joinWith ['\n'] [joinWith [';'] (gs ++ [g])]
            = joinWith [';'] (gs ++ [g]) from rfl,
        ← List.append_nil (joinWith [';'] (gs ++ [g])),
        scanLine gs g (fun f hf => hclean f (by simp [hf])) (hclean g (by simp)),
        List.nil_append, csvRun_flush false g gs acc
          (by rcases hflush with h | h; exacts [Or.inl h, Or.inr h])]
    | r2 :: rls2 =>
      rw [List.map_cons,
        joinWith_cons ['\n'] (joinWith [';'] (gs ++ [g]))
          ((r2 :: rls2).map (joinWith [';'])) (by simp),
        List.append_assoc,
        scanLine gs g (fun f hf => hclean f (by simp [hf])) (hclean g (by simp)),
        List.nil_append,
        show (['\n'] ++ joinWith ['\n'] ((r2 :: rls2).map (joinWith [';'])))
            = ('\n' :: joinWith ['\n'] ((r2 :: rls2).map (joinWith [';']))) from rfl,
        csvRun_newline, ih (acc ++ [gs ++ [g]])
          (fun x hx => hok x (by simp [hx])) (by simp)]
      simp

theorem map_data_map_mk (r : List String) :
    (r.map String.data).map String.mk = r := by
  induction r with
  | nil => rfl
  | cons s ss ih => simp [ih, string_mk_data]

theorem map_table_mk_data (l : List (List String)) :
    (l.map (fun r => r.map String.data)).map (fun r => r.map String.mk) = l := by
  induction l with
  | nil => rfl
  | cons x xs ih => simp only [List.map_cons, map_data_map_mk, ih]

theorem keepRow_map_data (r : List String) (h1 : r ≠ []) (h2 : r ≠ [""]) :
    keepRow (r.map String.data) = true := by
  match r with
  | [f] =>
    have hf : f ≠ "" := fun h => h2 (by rw [h])
    have hfd : f.data ≠ [] := by
      intro h
      exact hf (by rw [← string_mk_data f, h])
    simp [keepRow, List.isEmpty_iff, hfd]
  | a :: b :: t => simp [keepRow]

/-- C2 amended: for every table whose rows are nonempty and are not the
single empty field, whose fields contain no embedded delimiter, quote or
line terminator, and whose rendering is unchanged by trimming, rendering
each row as a semicolon-joined line joined by line terminators and
feeding the result back through the tokenizer reproduces the rows
exactly. -/
theorem C2_round_trip (rows : List (List String))
    (hrow : ∀ r ∈ rows, r ≠ [] ∧ r ≠ [""])
    (hclean : ∀ r ∈ rows, ∀ f ∈ r, cleanFieldB f.data = true)
    (htrim : jsTrim (renderSemicolonLines rows).data = (renderSemicolonLines rows).data) :
    parseCsvWithQuotes (renderSemicolonLines rows) = rows := by
  unfold parseCsvWithQuotes
  have hdata : (renderSemicolonLines rows).data
      = joinWith ['\n'] ((rows.map (fun r => r.map String.data)).map (joinWith [';'])) := by
    show joinWith ['\n'] (rows.map (fun r => joinWith [';'] (r.map String.data)))
      = joinWith ['\n'] ((rows.map (fun r => r.map String.data)).map (joinWith [';']))
    rw [List.map_map]
    rfl
  rw [htrim, hdata]
  match rows, hrow, hclean with
  | [], _, _ => rfl
  | r0 :: rows0, hrow, hclean =>
    rw [scanTable ((r0 :: rows0).map (fun r => r.map String.data)) [] ?rowok (by simp)]
    case rowok =>
      intro rc hrc
      obtain ⟨r, hr, rfl⟩ := List.mem_map.mp hrc
      refine ⟨?_, ?_, ?_⟩
      · simpa [List.map_eq_nil_iff] using (hrow r hr).1
      · intro h
        have hlen : r.length = 1 := by simpa using congrArg List.length h
        obtain ⟨s, rfl⟩ : ∃ s, r = [s] := by
          match r, hlen with
          | [s], _ => exact ⟨s, rfl⟩
        have hs : s.data = [] := by simpa using h
        have : s = "" := by rw [← string_mk_data s, hs]
        exact (hrow [s] hr).2 (by rw [this])
      · intro f hf
        obtain ⟨g, hg, rfl⟩ := List.mem_map.mp hf
        exact hclean r hr g hg
    rw [List.nil_append,
      List.filter_eq_self.mpr (fun rc hrc => by
        obtain ⟨r, hr, rfl⟩ := List.mem_map.mp hrc
        exact keepRow_map_data r (hrow r hr).1 (hrow r hr).2)]
    exact map_table_mk_data (r0 :: rows0)

/-- C2 counterexample to the claim as stated: the one-row table whose
single field is empty has no embedded delimiters or newlines, yet its
rendering is the empty string, which parses back to no rows at all. -/
theorem C2_counterexample :
    parseCsvWithQuotes (renderSemicolonLines [[""]]) ≠ [[""]] := by decide

theorem C2_round_trip_witness :
    (∀ r ∈ ([["a", "b"], ["c"]] : List (List String)), r ≠ [] ∧ r ≠ [""])
    ∧ parseCsvWithQuotes (renderSemicolonLines [["a", "b"], ["c"]]) = [["a", "b"], ["c"]] :=
  ⟨by decide, C2_round_trip [["a", "b"], ["c"]] (by decide) (by decide) (by decide)⟩

/-! Characterisation of the left-to-right scans of the extractor. -/

theorem matchCodeAt_nil (p : Option Char) : matchCodeAt p [] = none := by
  unfold matchCodeAt
  split <;> rfl

theorem matchLinkAt_nil : matchLinkAt [] = none := rfl

theorem pAt_zero (p : Option Char) (l : List Char) : pAt p l 0 = p := rfl

theorem pAt_succ_cons (p : Option Char) (c : Char) (rest : List Char) (i : Nat) :
    pAt p (c :: rest) (i + 1) = pAt (some c) rest i := by
  unfold pAt
  by_cases h : i = 0
  · subst h; simp
  · obtain ⟨j, rfl⟩ := Nat.exists_eq_succ_of_ne_zero h
    simp

/-- The code scan returns nothing exactly when the pattern matches at no
position. -/
theorem findCode_eq_none_iff : ∀ (l : List Char) (p : Option Char),
    findCode p l = none ↔ ∀ i, matchCodeAt (pAt p l i) (l.drop i) = none := by
  intro l
  induction l with
  | nil =>
    intro p
    constructor
    · intro _ i
      rw [List.drop_nil]
      exact matchCodeAt_nil _
    · intro _; rfl
  | cons c rest ih =>
    intro p
    cases h : matchCodeAt p (c :: rest) with
    | some m =>
      simp only [findCode, h]
      constructor
      · intro habs; exact absurd habs (by simp)
      · intro hall
        have h0 := hall 0
        rw [pAt_zero, List.drop_zero, h] at h0
        exact absurd h0 (by simp)
    | none =>
      simp only [findCode, h]
      rw [ih (some c)]
      constructor
      · intro hall i
        cases i with
        | zero => rw [pAt_zero, List.drop_zero]; exact h
        | succ j => rw [pAt_succ_cons, List.drop_succ_cons]; exact hall j
      · intro hall j
        have hj := hall (j + 1)
        rw [pAt_succ_cons, List.drop_succ_cons] at hj
        exact hj

/-- The code scan returns the match at the first matching position. -/
theorem findCode_eq_some_iff : ∀ (l : List Char) (p : Option Char) (m : List Char),
    findCode p l = some m ↔ ∃ i, matchCodeAt (pAt p l i) (l.drop i) = some m
      ∧ ∀ j < i, matchCodeAt (pAt p l j) (l.drop j) = none := by
  intro l
  induction l with
  | nil =>
    intro p m
    constructor
    · intro h; exact absurd h (by simp [findCode])
    · rintro ⟨i, hi, _⟩
      rw [List.drop_nil, matchCodeAt_nil] at hi
      exact absurd hi (by simp)
  | cons c rest ih =>
    intro p m
    cases h : matchCodeAt p (c :: rest) with
    | some m0 =>
      simp only [findCode, h]
      constructor
      · intro hsome
        refine ⟨0, ?_, ?_⟩
        · rw [pAt_zero, List.drop_zero, h]; exact hsome
        · intro j hj; omega
      · rintro ⟨i, hi, hmin⟩
        cases i with
        | zero => rw [pAt_zero, List.drop_zero, h] at hi; exact hi
        | succ j =>
          have h0 := hmin 0 (Nat.succ_pos j)
          rw [pAt_zero, List.drop_zero, h] at h0
          exact absurd h0 (by simp)
    | none =>
      simp only [findCode, h]
      rw [ih (some c) m]
      constructor
      · rintro ⟨i, hi, hmin⟩
        refine ⟨i + 1, ?_, ?_⟩
        · rw [pAt_succ_cons, List.drop_succ_cons]; exact hi
        · intro j hj
          cases j with
          | zero => rw [pAt_zero, List.drop_zero]; exact h
          | succ j2 =>
            rw [pAt_succ_cons, List.drop_succ_cons]
            exact hmin j2 (by omega)
      · rintro ⟨i, hi, hmin⟩
        cases i with
        | zero => rw [pAt_zero, List.drop_zero, h] at hi; exact absurd hi (by simp)
        | succ j =>
          refine ⟨j, ?_, ?_⟩
          · rw [pAt_succ_cons, List.drop_succ_cons] at hi; exact hi
          · intro j2 hj2
            have hj := hmin (j2 + 1) (by omega)
            rw [pAt_succ_cons, List.drop_succ_cons] at hj
            exact hj

/-- The link scan returns nothing exactly when the pattern matches at no
position. -/
theorem findLink_eq_none_iff : ∀ (l : List Char),
    findLink l = none ↔ ∀ i, matchLinkAt (l.drop i) = none := by
  intro l
  induction l with
  | nil =>
    constructor
    · intro _ i
      rw [List.drop_nil]
      exact matchLinkAt_nil
    · intro _; rfl
  | cons c rest ih =>
    cases h : matchLinkAt (c :: rest) with
    | some m =>
      simp only [findLink, h]
      constructor
      · intro habs; exact absurd habs (by simp)
      · intro hall
        have h0 := hall 0
        rw [List.drop_zero, h] at h0
        exact absurd h0 (by simp)
    | none =>
      simp only [findLink, h]
      rw [ih]
      constructor
      · intro hall i
        cases i with
        | zero => rw [List.drop_zero]; exact h
        | succ j => rw [List.drop_succ_cons]; exact hall j
      · intro hall j
        have hj := hall (j + 1)
        rw [List.drop_succ_cons] at hj
        exact hj

/-- The link scan returns the match at the first matching position. -/
theorem findLink_eq_some_iff : ∀ (l m : List Char),
    findLink l = some m ↔ ∃ i, matchLinkAt (l.drop i) = some m
      ∧ ∀ j < i, matchLinkAt (l.drop j) = none := by
  intro l
  induction l with
  | nil =>
    intro m
    constructor
    · intro h; exact absurd h (by simp [findLink])
    · rintro ⟨i, hi, _⟩
      rw [List.drop_nil, matchLinkAt_nil] at hi
      exact absurd hi (by simp)
  | cons c rest ih =>
    intro m
    cases h : matchLinkAt (c :: rest) with
    | some m0 =>
      simp only [findLink, h]
      constructor
      · intro hsome
        refine ⟨0, ?_, ?_⟩
        · rw [List.drop_zero, h]; exact hsome
        · intro j hj; omega
      · rintro ⟨i, hi, hmin⟩
        cases i with
        | zero => rw [List.drop_zero, h] at hi; exact hi
        | succ j =>
          have h0 := hmin 0 (Nat.succ_pos j)
          rw [List.drop_zero, h] at h0
          exact absurd h0 (by simp)
    | none =>
      simp only [findLink, h]
      rw [ih]
      constructor
      · rintro ⟨i, hi, hmin⟩
        refine ⟨i + 1, ?_, ?_⟩
        · rw [List.drop_succ_cons]; exact hi
        · intro j hj
          cases j with
          | zero => rw [List.drop_zero]; exact h
          | succ j2 =>
            rw [List.drop_succ_cons]
            exact hmin j2 (by omega)
      · rintro ⟨i, hi, hmin⟩
        cases i with
        | zero => rw [List.drop_zero, h] at hi; exact absurd hi (by simp)
        | succ j =>
          refine ⟨j, ?_, ?_⟩
          · rw [List.drop_succ_cons] at hi; exact hi
          · intro j2 hj2
            have hj := hmin (j2 + 1) (by omega)
            rw [List.drop_succ_cons] at hj
            exact hj

/-! Characterisation of the per-position matchers of the code pattern. -/

theorem isWordChar_of_isDigit (c : Char) (h : Char.isDigit c = true) :
    isWordChar c = true := by
  simp [isWordChar, h]

/-- After a final digit, the word-boundary test against the next
character is exactly the tail-boundary test of the engine. -/
theorem wordBoundary_after_digit (m t : List Char) (hne : m ≠ [])
    (hlast : Char.isDigit (m.getLast hne) = true) :
    wordBoundary m.getLast? t.head? = tailBoundary t := by
  rw [List.getLast?_eq_getLast_of_ne_nil hne]
  have hw : wordOpt (some (m.getLast hne)) = true := by
    simp [wordOpt, isWordChar_of_isDigit _ hlast]
  cases t with
  | nil =>
    simp [wordBoundary, wordOpt, tailBoundary, isWordChar_of_isDigit _ hlast]
  | cons c t2 =>
    simp [wordBoundary, wordOpt, tailBoundary, isWordChar_of_isDigit _ hlast,
      Bool.true_bne]

theorem tryRunLen_eq_some_iff (l : List Char) (k : Nat) (m : List Char) :
    tryRunLen l k = some m ↔
      m = l.take k ∧ m.length = k ∧ m.all Char.isDigit = true ∧
        tailBoundary (l.drop k) = true := by
  unfold tryRunLen
  split
  case isTrue h =>
    simp only [Bool.and_eq_true, decide_eq_true_eq] at h
    obtain ⟨⟨hlen, hall⟩, htb⟩ := h
    constructor
    · intro h
      obtain rfl : m = l.take k := (Option.some.inj h).symm
      exact ⟨rfl, hlen, hall, htb⟩
    · rintro ⟨rfl, _, _, _⟩; rfl
  case isFalse h =>
    constructor
    · intro habs; exact absurd habs (by simp)
    · rintro ⟨rfl, h1, h2, h3⟩
      exact absurd (by simp [h1, h2, h3]) h

/-- A longer greedy attempt fails whenever a shorter one reaches a tail
boundary. -/
theorem tryRunLen_none_of_boundary (l : List Char) (k k' : Nat) (hkk : k < k')
    (htb : tailBoundary (l.drop k) = true) : tryRunLen l k' = none := by
  unfold tryRunLen
  rw [if_neg]
  intro hcond
  simp only [Bool.and_eq_true, decide_eq_true_eq] at hcond
  obtain ⟨⟨hlen, hall⟩, _⟩ := hcond
  rw [List.length_take] at hlen
  have hk'le : k' ≤ l.length := by omega
  have hklt : k < l.length := by omega
  have hdropne : l.drop k ≠ [] := by
    intro h2
    have h3 := List.length_drop k l
    rw [h2] at h3
    simp at h3
    omega
  obtain ⟨c0, t0, hdrop⟩ := List.exists_cons_of_ne_nil hdropne
  rw [hdrop] at htb
  simp only [tailBoundary, Bool.not_eq_true'] at htb
  have hc0 : l[k]? = some c0 := by
    have := List.getElem?_drop l k 0
    rw [hdrop] at this
    simpa using this.symm
  have hc0mem : c0 ∈ l.take k' := by
    apply List.getElem?_mem
    show (l.take k')[k]? = some c0
    rw [List.getElem?_take]
    simp [hkk, hc0]
  have hdig := List.all_eq_true.mp hall c0 hc0mem
  rw [isWordChar_of_isDigit c0 hdig] at htb
  exact absurd htb (by simp)

/-- The greedy digit-run alternative succeeds with m exactly when m is
the leading prefix of four to eight digits delimited by a tail boundary. -/
theorem matchAltA_eq_some_iff (l m : List Char) :
    matchAltA l = some m ↔
      m = l.take m.length ∧ 4 ≤ m.length ∧ m.length ≤ 8 ∧
        m.all Char.isDigit = true ∧ tailBoundary (l.drop m.length) = true := by
  constructor
  · intro h
    unfold matchAltA at h
    rw [Option.orElse_eq_some'] at h
    rcases h with h8 | ⟨_, h⟩
    · rw [tryRunLen_eq_some_iff] at h8
      obtain ⟨hm, hlen, hdig, htb⟩ := h8
      exact ⟨by rw [hlen, hm], by omega, by omega, hdig, by rw [hlen]; exact htb⟩
    rw [Option.orElse_eq_some'] at h
    rcases h with h7 | ⟨_, h⟩
    · rw [tryRunLen_eq_some_iff] at h7
      obtain ⟨hm, hlen, hdig, htb⟩ := h7
      exact ⟨by rw [hlen, hm], by omega, by omega, hdig, by rw [hlen]; exact htb⟩
    rw [Option.orElse_eq_some'] at h
    rcases h with h6 | ⟨_, h⟩
    · rw [tryRunLen_eq_some_iff] at h6
      obtain ⟨hm, hlen, hdig, htb⟩ := h6
      exact ⟨by rw [hlen, hm], by omega, by omega, hdig, by rw [hlen]; exact htb⟩
    rw [Option.orElse_eq_some'] at h
    rcases h with h5 | ⟨_, h4⟩
    · rw [tryRunLen_eq_some_iff] at h5
      obtain ⟨hm, hlen, hdig, htb⟩ := h5
      exact ⟨by rw [hlen, hm], by omega, by omega, hdig, by rw [hlen]; exact htb⟩
    · rw [tryRunLen_eq_some_iff] at h4
      obtain ⟨hm, hlen, hdig, htb⟩ := h4
      exact ⟨by rw [hlen, hm], by omega, by omega, hdig, by rw [hlen]; exact htb⟩
  · rintro ⟨hm, h4, h8, hdig, htb⟩
    have hsucc : tryRunLen l m.length = some m :=
      (tryRunLen_eq_some_iff l m.length m).mpr ⟨hm, rfl, hdig, htb⟩
    have hfail : ∀ k', m.length < k' → tryRunLen l k' = none :=
      fun k' hkk => tryRunLen_none_of_boundary l m.length k' hkk htb
    have hk58 : m.length = 4 ∨ m.length = 5 ∨ m.length = 6 ∨ m.length = 7
        ∨ m.length = 8 := by omega
    unfold matchAltA
    rcases hk58 with hk | hk | hk | hk | hk
    · rw [hfail 8 (by omega), hfail 7 (by omega), hfail 6 (by omega),
        hfail 5 (by omega), ← hk, hsucc]
      rfl
    · rw [hfail 8 (by omega), hfail 7 (by omega), hfail 6 (by omega),
        ← hk, hsucc]
      rfl
    · rw [hfail 8 (by omega), hfail 7 (by omega), ← hk, hsucc]
      rfl
    · rw [hfail 8 (by omega), ← hk, hsucc]
      rfl
    · rw [← hk, hsucc]
      rfl

/-- The hyphenated alternative succeeds with m exactly when the input
starts with three digits, a hyphen and three digits followed by a tail
boundary, and m is that seven-character prefix. -/
theorem matchAltB_eq_some_iff (l m : List Char) :
    matchAltB l = some m ↔
      ∃ a b c d e f rest, l = a :: b :: c :: '-' :: d :: e :: f :: rest ∧
        m = [a, b, c, '-', d, e, f] ∧
        Char.isDigit a = true ∧ Char.isDigit b = true ∧ Char.isDigit c = true ∧
        Char.isDigit d = true ∧ Char.isDigit e = true ∧ Char.isDigit f = true ∧
        tailBoundary rest = true := by
  constructor
  · intro h
    rcases l with _ | ⟨a, l⟩
    · exact absurd h (by simp [matchAltB])
    rcases l with _ | ⟨b, l⟩
    · exact absurd h (by simp [matchAltB])
    rcases l with _ | ⟨c, l⟩
    · exact absurd h (by simp [matchAltB])
    rcases l with _ | ⟨hh, l⟩
    · exact absurd h (by simp [matchAltB])
    rcases l with _ | ⟨d, l⟩
    · exact absurd h (by simp [matchAltB])
    rcases l with _ | ⟨e, l⟩
    · exact absurd h (by simp [matchAltB])
    rcases l with _ | ⟨f, rest⟩
    · exact absurd h (by simp [matchAltB])
    simp only [matchAltB] at h
    split at h
    case isTrue hcond =>
      simp only [Bool.and_eq_true, decide_eq_true_eq] at hcond
      obtain ⟨⟨⟨⟨⟨⟨⟨ha, hb⟩, hc⟩, hhy⟩, hd⟩, he⟩, hf⟩, htb⟩ := hcond
      subst hhy
      obtain rfl : [a, b, c, '-', d, e, f] = m := Option.some.inj h
      exact ⟨a, b, c, d, e, f, rest, rfl, rfl, ha, hb, hc, hd, he, hf, htb⟩
    case isFalse => exact absurd h (by simp)
  · rintro ⟨a, b, c, d, e, f, rest, rfl, rfl, ha, hb, hc, hd, he, hf, htb⟩
    simp [matchAltB, ha, hb, hc, hd, he, hf, htb]

/-- A greedy attempt fails when a non-digit sits within its window. -/
theorem tryRunLen_none_of_nondigit (l : List Char) (k j : Nat) (hj : j < k)
    (c0 : Char) (hc0 : l[j]? = some c0) (hnd : Char.isDigit c0 = false) :
    tryRunLen l k = none := by
  unfold tryRunLen
  rw [if_neg]
  intro hcond
  simp only [Bool.and_eq_true, decide_eq_true_eq] at hcond
  have hc0mem : c0 ∈ l.take k := by
    apply List.getElem?_mem
    show (l.take k)[j]? = some c0
    rw [List.getElem?_take]
    simp [hj, hc0]
  have hdig := List.all_eq_true.mp hcond.1.2 c0 hc0mem
  rw [hnd] at hdig
  exact absurd hdig (by simp)

/-- The per-position attempt of the whole confirmation-code pattern
succeeds with m exactly when m is a code token at this position in the
sense of the specification. -/
theorem matchCodeAt_eq_some_iff (p : Option Char) (l m : List Char) :
    matchCodeAt p l = some m ↔ CodeTokenAt p l m := by
  constructor
  · intro h
    unfold matchCodeAt at h
    by_cases hb : wordBoundary p l.head? = true
    case neg => rw [if_neg hb] at h; exact absurd h (by simp)
    rw [if_pos hb, Option.orElse_eq_some'] at h
    rcases h with hA | ⟨hAn, hB⟩
    · rw [matchAltA_eq_some_iff] at hA
      obtain ⟨hm, h4, h8, hdig, htb⟩ := hA
      have hne : m ≠ [] := by intro h0; rw [h0] at h4; simp at h4
      have hpre : l = m ++ l.drop m.length := by
        conv_lhs => rw [← List.take_append_drop m.length l]
        rw [← hm]
      have hlast : Char.isDigit (m.getLast hne) = true :=
        List.all_eq_true.mp hdig _ (List.getLast_mem hne)
      refine ⟨⟨l.drop m.length, hpre⟩, ?_, ?_, Or.inl ⟨hdig, h4, h8⟩⟩
      · have hhead : l.head? = m.head? := by
          obtain ⟨a0, m2, hm0⟩ := List.exists_cons_of_ne_nil hne
          rw [hpre, hm0]
          rfl
        rw [← hhead]
        exact hb
      · rw [wordBoundary_after_digit m (l.drop m.length) hne hlast]
        exact htb
    · rw [matchAltB_eq_some_iff] at hB
      obtain ⟨a, b, c, d, e, f, rest, rfl, rfl, ha, hb2, hc, hd, he, hf, htb⟩ := hB
      refine ⟨⟨rest, rfl⟩, hb, ?_, Or.inr ⟨a, b, c, d, e, f, rfl, ha, hb2, hc, hd, he, hf⟩⟩
      rw [show List.drop (List.length [a, b, c, '-', d, e, f])
            (a :: b :: c :: '-' :: d :: e :: f :: rest) = rest from rfl,
        show (([a, b, c, '-', d, e, f] : List Char)).getLast? = some f from rfl]
      cases rest with
      | nil => simp [wordBoundary, wordOpt, isWordChar_of_isDigit f hf]
      | cons c0 t0 =>
        simp only [tailBoundary] at htb
        simp [wordBoundary, wordOpt, isWordChar_of_isDigit f hf, Bool.true_bne, htb]
  · intro hct
    obtain ⟨⟨t, rfl⟩, hbefore, hafter, hshape⟩ := hct
    rcases hshape with ⟨hdig, h4, h8⟩ | ⟨a, b, c, d, e, f, rfl, ha, hb2, hc, hd, he, hf⟩
    · have hne : m ≠ [] := by intro h0; rw [h0] at h4; simp at h4
      have hlast : Char.isDigit (m.getLast hne) = true :=
        List.all_eq_true.mp hdig _ (List.getLast_mem hne)
      have hhead : (m ++ t).head? = m.head? := by
        obtain ⟨a0, m2, rfl⟩ := List.exists_cons_of_ne_nil hne
        rfl
      have htake : (m ++ t).take m.length = m := List.take_left m t
      have hdrop : (m ++ t).drop m.length = t := List.drop_left m t
      have htb : tailBoundary t = true := by
        rw [← wordBoundary_after_digit m t hne hlast, ← hdrop]
        exact hafter
      unfold matchCodeAt
      rw [if_pos (by rw [hhead]; exact hbefore), Option.orElse_eq_some']
      left
      rw [matchAltA_eq_some_iff]
      exact ⟨htake.symm, h4, h8, hdig, by rw [hdrop]; exact htb⟩
    · have hdrop : (([a, b, c, '-', d, e, f] : List Char) ++ t).drop
          (List.length [a, b, c, '-', d, e, f]) = t := List.drop_left _ _
      have htb : tailBoundary t = true := by
        rw [hdrop] at hafter
        rw [show (([a, b, c, '-', d, e, f] : List Char)).getLast? = some f from rfl] at hafter
        cases t with
        | nil => simp [tailBoundary]
        | cons c0 t0 =>
          simp only [wordBoundary, wordOpt] at hafter
          rw [isWordChar_of_isDigit f hf] at hafter
          simpa [tailBoundary, Bool.true_bne] using hafter
      unfold matchCodeAt
      rw [if_pos (by exact hbefore), Option.orElse_eq_some']
      right
      have hc0 : (([a, b, c, '-', d, e, f] : List Char) ++ t)[3]? = some '-' := rfl
      constructor
      · unfold matchAltA
        rw [tryRunLen_none_of_nondigit _ 8 3 (by omega) '-' hc0 (by decide),
          tryRunLen_none_of_nondigit _ 7 3 (by omega) '-' hc0 (by decide),
          tryRunLen_none_of_nondigit _ 6 3 (by omega) '-' hc0 (by decide),
          tryRunLen_none_of_nondigit _ 5 3 (by omega) '-' hc0 (by decide),
          tryRunLen_none_of_nondigit _ 4 3 (by omega) '-' hc0 (by decide)]
        rfl
      · rw [matchAltB_eq_some_iff]
        exact ⟨a, b, c, d, e, f, t, rfl, rfl, ha, hb2, hc, hd, he, hf, htb⟩

/-- C3: the extractor returns no confirmation code exactly when no code
token occurs anywhere in the message, and it returns a code exactly when
that code is, after stripping hyphens, the code token at the first
matching position of a left-to-right scan. -/
theorem C3_confirmation_code_rule (msg : String) :
    ((extractInfoWithoutAI msg).confirmationCode = none ↔
      ∀ i m, ¬ CodeTokenAt (pAt none msg.data i) (msg.data.drop i) m)
    ∧ (∀ code, (extractInfoWithoutAI msg).confirmationCode = some code ↔
        ∃ i m, CodeTokenAt (pAt none msg.data i) (msg.data.drop i) m
          ∧ (∀ j mm, CodeTokenAt (pAt none msg.data j) (msg.data.drop j) mm → i ≤ j)
          ∧ code = String.mk (m.filter (fun c => c ≠ '-'))) := by
  have hext : (extractInfoWithoutAI msg).confirmationCode
      = (findCode none msg.data).map
          (fun m => String.mk (m.filter (fun c => c ≠ '-'))) := rfl
  constructor
  · rw [hext, Option.map_eq_none', findCode_eq_none_iff]
    constructor
    · intro hall i m hct
      have hs := (matchCodeAt_eq_some_iff _ _ m).mpr hct
      rw [hall i] at hs
      exact absurd hs (by simp)
    · intro hall i
      cases hmc : matchCodeAt (pAt none msg.data i) (msg.data.drop i) with
      | none => rfl
      | some m => exact absurd ((matchCodeAt_eq_some_iff _ _ m).mp hmc) (hall i m)
  · intro code
    rw [hext]
    constructor
    · intro h
      obtain ⟨m, hfind, hcode⟩ := Option.map_eq_some'.mp h
      rw [findCode_eq_some_iff] at hfind
      obtain ⟨i, hi, hmin⟩ := hfind
      refine ⟨i, m, (matchCodeAt_eq_some_iff _ _ m).mp hi, ?_, hcode.symm⟩
      intro j mm hct
      by_contra hlt
      push_neg at hlt
      have hs := (matchCodeAt_eq_some_iff _ _ mm).mpr hct
      rw [hmin j hlt] at hs
      exact absurd hs (by simp)
    · rintro ⟨i, m, hct, hmin, rfl⟩
      apply Option.map_eq_some'.mpr
      refine ⟨m, ?_, rfl⟩
      rw [findCode_eq_some_iff]
      refine ⟨i, (matchCodeAt_eq_some_iff _ _ m).mpr hct, ?_⟩
      intro j hj
      cases hmc : matchCodeAt (pAt none msg.data j) (msg.data.drop j) with
      | none => rfl
      | some mm =>
        have := hmin j mm ((matchCodeAt_eq_some_iff _ _ mm).mp hmc)
        omega

theorem C3_confirmation_code_rule_witness :
    (extractInfoWithoutAI "1234").confirmationCode = some "1234" :=
  ((C3_confirmation_code_rule "1234").2 "1234").mpr
    ⟨0, ['1', '2', '3', '4'],
      ⟨⟨[], by decide⟩, by decide, by decide, Or.inl (by decide)⟩,
      fun j mm _ => Nat.zero_le j,
      by decide⟩

/-- C10: every confirmation code the extractor returns consists only of
decimal digits, has length between four and eight, and contains no
hyphen. -/
theorem C10_code_always_digits (msg code : String)
    (h : (extractInfoWithoutAI msg).confirmationCode = some code) :
    code.data.all Char.isDigit = true ∧ 4 ≤ code.data.length
      ∧ code.data.length ≤ 8 ∧ '-' ∉ code.data := by
  have hext : (extractInfoWithoutAI msg).confirmationCode
      = (findCode none msg.data).map
          (fun m => String.mk (m.filter (fun c => c ≠ '-'))) := rfl
  rw [hext] at h
  obtain ⟨m, hfind, hcode⟩ := Option.map_eq_some'.mp h
  rw [findCode_eq_some_iff] at hfind
  obtain ⟨i, hi, _⟩ := hfind
  obtain ⟨_, _, _, hshape⟩ := (matchCodeAt_eq_some_iff _ _ m).mp hi
  have hcd : code.data = m.filter (fun c => c ≠ '-') := by rw [← hcode]
  rcases hshape with ⟨hdig, h4, h8⟩ | ⟨a, b, c, d, e, f, rfl, ha, hb, hc, hd, he, hf⟩
  · have hfilter : m.filter (fun c => c ≠ '-') = m := by
      apply List.filter_eq_self.mpr
      intro c hcmem
      have hcdig := List.all_eq_true.mp hdig c hcmem
      simp only [decide_eq_true_eq]
      intro hcm
      rw [hcm] at hcdig
      exact absurd hcdig (by decide)
    rw [hcd, hfilter]
    refine ⟨hdig, h4, h8, ?_⟩
    intro hmem
    have := List.all_eq_true.mp hdig '-' hmem
    exact absurd this (by decide)
  · have hane : a ≠ '-' := fun hx => by rw [hx] at ha; exact absurd ha (by decide)
    have hbne : b ≠ '-' := fun hx => by rw [hx] at hb; exact absurd hb (by decide)
    have hcne : c ≠ '-' := fun hx => by rw [hx] at hc; exact absurd hc (by decide)
    have hdne : d ≠ '-' := fun hx => by rw [hx] at hd; exact absurd hd (by decide)
    have hene : e ≠ '-' := fun hx => by rw [hx] at he; exact absurd he (by decide)
    have hfne : f ≠ '-' := fun hx => by rw [hx] at hf; exact absurd hf (by decide)
    have hfilter : ([a, b, c, '-', d, e, f] : List Char).filter (fun c => c ≠ '-')
        = [a, b, c, d, e, f] := by
      simp [List.filter_cons, hane, hbne, hcne, hdne, hene, hfne]
    rw [hcd, hfilter]
    refine ⟨by simp [ha, hb, hc, hd, he, hf], by simp, by simp, ?_⟩
    intro hmem
    simp only [List.mem_cons, List.not_mem_nil, or_false] at hmem
    rcases hmem with hx | hx | hx | hx | hx | hx
    exacts [hane hx.symm, hbne hx.symm, hcne hx.symm, hdne hx.symm,
      hene hx.symm, hfne hx.symm]

theorem C10_code_always_digits_witness :
    ("123456" : String).data.all Char.isDigit = true
      ∧ 4 ≤ ("123456" : String).data.length
      ∧ ("123456" : String).data.length ≤ 8
      ∧ '-' ∉ ("123456" : String).data :=
  C10_code_always_digits "Code: 123-456" "123456" (by decide)

/-! Characterisation of the per-position matcher of the link pattern. -/

theorem dropLit_eq_some_iff : ∀ (ps l r : List Char),
    dropLit ps l = some r ↔ l = ps ++ r := by
  intro ps
  induction ps with
  | nil => intro l r; simp [dropLit, eq_comm]
  | cons a ps ih =>
    intro l r
    cases l with
    | nil => simp [dropLit]
    | cons c cs =>
      by_cases h : c = a
      · subst h
        simp [dropLit, ih]
      · simp [dropLit, h]

theorem linkTailRun_eq_some_iff (l m : List Char) :
    linkTailRun l = some m ↔ m = l.takeWhile linkChar ∧ m ≠ [] := by
  unfold linkTailRun
  split
  case isTrue h =>
    rw [List.isEmpty_iff] at h
    constructor
    · intro habs; exact absurd habs (by simp)
    · rintro ⟨rfl, hne⟩; exact absurd h hne
  case isFalse h =>
    rw [List.isEmpty_iff] at h
    constructor
    · intro hs
      obtain rfl : m = l.takeWhile linkChar := (Option.some.inj hs).symm
      exact ⟨rfl, h⟩
    · rintro ⟨rfl, _⟩; rfl

theorem schemeTail_eq_some_iff (hasS : Bool) (r m : List Char) :
    schemeTail hasS r = some m ↔
      ∃ t, r = "://".data ++ t ∧ t.takeWhile linkChar ≠ [] ∧
        m = ("http".data ++ (if hasS then ['s'] else []) ++ "://".data)
            ++ t.takeWhile linkChar := by
  unfold schemeTail
  cases hdl : dropLit ("://".data) r with
  | none =>
    dsimp only
    constructor
    · intro habs; exact absurd habs (by simp)
    · rintro ⟨t, rfl, _, _⟩
      rw [(dropLit_eq_some_iff ("://".data) _ t).mpr rfl] at hdl
      exact absurd hdl (by simp)
  | some rest2 =>
    dsimp only
    have hr : r = "://".data ++ rest2 := (dropLit_eq_some_iff _ _ _).mp hdl
    cases hlt : linkTailRun rest2 with
    | none =>
      dsimp only
      constructor
      · intro habs; exact absurd habs (by simp)
      · rintro ⟨t, heq, hne, _⟩
        obtain rfl : rest2 = t :=
          (List.append_right_inj _).mp (hr.symm.trans heq)
        rw [linkTailRun, if_neg (by rw [List.isEmpty_iff]; exact hne)] at hlt
        exact absurd hlt (by simp)
    | some run =>
      dsimp only
      obtain ⟨hrun, hne⟩ := (linkTailRun_eq_some_iff rest2 run).mp hlt
      constructor
      · intro hs
        obtain rfl := (Option.some.inj hs).symm
        exact ⟨rest2, hr, by rw [← hrun]; exact hne, by rw [hrun]⟩
      · rintro ⟨t, heq, _, rfl⟩
        obtain rfl : rest2 = t :=
          (List.append_right_inj _).mp (hr.symm.trans heq)
        rw [hrun]

theorem schemeTail_false_cons_s (r2 : List Char) :
    schemeTail false ('s' :: r2) = none := rfl

/-- The per-position attempt of the link pattern succeeds with m exactly
when m is a link token at this position in the sense of the
specification. -/
theorem matchLinkAt_eq_some_iff (l m : List Char) :
    matchLinkAt l = some m ↔ LinkTokenAt l m := by
  constructor
  · intro h
    unfold matchLinkAt at h
    cases hdl : dropLit ("http".data) l with
    | none => rw [hdl] at h; exact absurd h (by simp)
    | some r =>
      rw [hdl] at h
      have hl : l = "http".data ++ r := (dropLit_eq_some_iff _ _ _).mp hdl
      dsimp only at h
      split at h
      next r2 =>
        simp only [schemeTail_false_cons_s] at h
        rw [Option.orElse_eq_some'] at h
        rcases h with h | ⟨_, h⟩
        · rw [schemeTail_eq_some_iff] at h
          obtain ⟨t, rfl, hne, rfl⟩ := h
          have hlt : l = "https://".data ++ t := by rw [hl]; rfl
          refine ⟨"https://".data, t.takeWhile linkChar, Or.inr rfl, ⟨t, hlt⟩, ?_, hne, rfl⟩
          rw [hlt, List.drop_left]
        · exact absurd h (by simp)
      next hne0 =>
        rw [schemeTail_eq_some_iff] at h
        obtain ⟨t, rfl, hne, rfl⟩ := h
        have hlt : l = "http://".data ++ t := by rw [hl]; rfl
        refine ⟨"http://".data, t.takeWhile linkChar, Or.inl rfl, ⟨t, hlt⟩, ?_, hne, rfl⟩
        rw [hlt, List.drop_left]
  · rintro ⟨scheme, tail, hsch, ⟨t, rfl⟩, htail, hne, rfl⟩
    have hdrop : (scheme ++ t).drop scheme.length = t := List.drop_left _ _
    rw [hdrop] at htail
    subst htail
    rcases hsch with rfl | rfl
    · have hdl : dropLit ("http".data) ("http://".data ++ t)
          = some ("://".data ++ t) := by
        rw [dropLit_eq_some_iff]
        rfl
      unfold matchLinkAt
      rw [hdl]
      dsimp only
      split
      next r2 heq => simp at heq
      next hne2 =>
        rw [schemeTail_eq_some_iff]
        exact ⟨t, rfl, hne, rfl⟩
    · have hdl : dropLit ("http".data) ("https://".data ++ t)
          = some ('s' :: ("://".data ++ t)) := by
        rw [dropLit_eq_some_iff]
        rfl
      unfold matchLinkAt
      rw [hdl]
      dsimp only
      split
      next r2 heq =>
        obtain rfl : "://".data ++ t = r2 := by
          have := List.cons.inj heq
          exact this.2
        rw [Option.orElse_eq_some']
        left
        rw [schemeTail_eq_some_iff]
        exact ⟨t, rfl, hne, rfl⟩
      next hne2 => exact (hne2 ("://".data ++ t) rfl).elim

/-- C4: the extractor returns no link exactly when no link token occurs
anywhere in the message, and it returns a link exactly when it is the
link token at the first matching position of a left-to-right scan. -/
theorem C4_link_rule (msg : String) :
    ((extractInfoWithoutAI msg).link = none ↔
      ∀ i m, ¬ LinkTokenAt (msg.data.drop i) m)
    ∧ (∀ lk, (extractInfoWithoutAI msg).link = some lk ↔
        ∃ i m, LinkTokenAt (msg.data.drop i) m
          ∧ (∀ j mm, LinkTokenAt (msg.data.drop j) mm → i ≤ j)
          ∧ lk = String.mk m) := by
  have hext : (extractInfoWithoutAI msg).link = (findLink msg.data).map String.mk := rfl
  constructor
  · rw [hext, Option.map_eq_none', findLink_eq_none_iff]
    constructor
    · intro hall i m hlt
      have hs := (matchLinkAt_eq_some_iff _ m).mpr hlt
      rw [hall i] at hs
      exact absurd hs (by simp)
    · intro hall i
      cases hmc : matchLinkAt (msg.data.drop i) with
      | none => rfl
      | some m => exact absurd ((matchLinkAt_eq_some_iff _ m).mp hmc) (hall i m)
  · intro lk
    rw [hext]
    constructor
    · intro h
      obtain ⟨m, hfind, hcode⟩ := Option.map_eq_some'.mp h
      rw [findLink_eq_some_iff] at hfind
      obtain ⟨i, hi, hmin⟩ := hfind
      refine ⟨i, m, (matchLinkAt_eq_some_iff _ m).mp hi, ?_, hcode.symm⟩
      intro j mm hlt
      by_contra hjlt
      push_neg at hjlt
      have hs := (matchLinkAt_eq_some_iff _ mm).mpr hlt
      rw [hmin j hjlt] at hs
      exact absurd hs (by simp)
    · rintro ⟨i, m, hlt, hmin, rfl⟩
      apply Option.map_eq_some'.mpr
      refine ⟨m, ?_, rfl⟩
      rw [findLink_eq_some_iff]
      refine ⟨i, (matchLinkAt_eq_some_iff _ m).mpr hlt, ?_⟩
      intro j hj
      cases hmc : matchLinkAt (msg.data.drop j) with
      | none => rfl
      | some mm =>
        have := hmin j mm ((matchLinkAt_eq_some_iff _ mm).mp hmc)
        omega

theorem C4_link_rule_witness :
    (extractInfoWithoutAI "http://a").link = some "http://a" :=
  ((C4_link_rule "http://a").2 "http://a").mpr
    ⟨0, "http://a".data,
      ⟨"http://".data, ['a'], Or.inl rfl, ⟨['a'], by decide⟩, by decide,
        by decide, by decide⟩,
      fun j mm _ => Nat.zero_le j,
      by decide⟩
